import Mathlib

/-!
Shallow embedding of the agamotto core (src/analysis.py, src/main.py,
src/simulation.py) and proofs about it.

Conventions: Python dicts with insertion order become association lists,
Python in-place list mutation becomes explicit state passing, the SUMO/traci
engine becomes an oracle function passed as a parameter, and unboundedly
growing loops are driven by an explicit fuel argument chosen large enough
(sufficiency is proved where a claim needs it).
-/

namespace Agamotto

/-- A network edge as used by src/analysis.py: sumolib exposes, per edge,
its id, the ids of edges with a connection into it (`getIncoming`) and the
ids of edges it connects into (`getOutgoing`). -/
structure Edge where
  id : String
  incoming : List String
  outgoing : List String
deriving DecidableEq

/-- The road network: the list of edges read by `sumolib.net.readNet`. -/
abbrev Net := List Edge

/-- `net.getEdge(id)` of sumolib, as a lookup. -/
def getEdge (net : Net) (i : String) : Option Edge :=
  net.find? (fun e => e.id == i)

/-- `connection.getOutgoing()` for the edge with the given id (sumolib hands
back edge objects; we track ids, so we look the edge up again; ids are unique
in a sumolib net). An id absent from the net has no outgoing edges. -/
def outgoingOf (net : Net) (i : String) : List String :=
  match getEdge net i with
  | some e => e.outgoing
  | none => []

/-- All ids appearing in some edge's incoming list (used only for fuel bounds
and invariants, not part of the source algorithm). -/
def allIncoming (net : Net) : List String :=
  (net.map Edge.incoming).flatten

/-- The ids of the net's edges. -/
def netIds (net : Net) : List String :=
  net.map Edge.id

/-- The mutable state of src/analysis.py's `get_options`: the `options` dict
(insertion-ordered, hence an association list) and the `closed_edges` list. -/
structure AnalysisState where
  options : List (String × List String)
  closed : List String
deriving DecidableEq

/-- Lines 25-27 of src/analysis.py: `for alt in alternatives: if alt not in
current_alts: options[connection_id].append(alt)`. -/
def appendAbsent (cur : List String) (alts : List String) : List String :=
  alts.foldl (fun acc a => if acc.contains a then acc else acc ++ [a]) cur

/-- Line 24 + lines 25-27 of src/analysis.py: `options.setdefault(connection_id,
[])` followed by append-if-absent of each alternative. -/
def addAlternatives (options : List (String × List String)) (key : String)
    (alts : List String) : List (String × List String) :=
  if options.any (fun p => p.1 == key) then
    options.map (fun p => if p.1 == key then (p.1, appendAbsent p.2 alts) else p)
  else
    options ++ [(key, appendAbsent [] alts)]

/-- The pending work of `get_options`: `visit id` is a call
`get_options(net, id, options, closed_edges)`; `conn c` is one iteration of
its `for connection in incoming` loop, for the incoming edge with id `c`. -/
inductive Task where
  | visit (id : String)
  | conn (c : String)
deriving DecidableEq

/-- src/analysis.py lines 11-32, `get_options`, as a step relation on an
explicit work stack (depth-first, so tasks execute in exactly the order the
Python recursion does, against exactly the same intermediate state).

* `visit id` (a call of `get_options`): eagerly computes
  `incoming = [i for i in closed.getIncoming() if i.getID() not in closed_edges]`
  and queues one `conn` per element, in order, ahead of the remaining work.
  (sumolib's `getEdge` raises on an unknown id; such a call never happens in
  the source because every visited id comes from the net, so an unknown id
  here simply contributes no work.)  Also counts the call (second component).
* `conn c` (one loop iteration): computes
  `alternatives = [o for o in connection.getOutgoing() if o not in closed_edges]`
  against the current state; if nonempty, records them (lines 23-27);
  otherwise, if `c` is not yet closed, appends `c` to `closed_edges` and
  recurses (`visit c`) before the rest of the loop (lines 28-32).

The Bool is true when the fuel never ran out, i.e. the run is complete. -/
def runTasks (net : Net) : Nat → List Task → AnalysisState → AnalysisState × Nat × Bool
  | _, [], st => (st, 0, true)
  | 0, _ :: _, st => (st, 0, false)
  | fuel + 1, Task.visit i :: rest, st =>
    let inc : List String :=
      match getEdge net i with
      | some e => e.incoming.filter (fun c => !(st.closed.contains c))
      | none => []
    let r := runTasks net fuel (inc.map Task.conn ++ rest) st
    (r.1, r.2.1 + 1, r.2.2)
  | fuel + 1, Task.conn c :: rest, st =>
    let alternatives := (outgoingOf net c).filter (fun o => !(st.closed.contains o))
    if 0 < alternatives.length then
      runTasks net fuel rest ⟨addAlternatives st.options c alternatives, st.closed⟩
    else if st.closed.contains c then
      runTasks net fuel rest st
    else
      runTasks net fuel (Task.visit c :: rest) ⟨st.options, st.closed ++ [c]⟩

/-- Fuel that provably suffices for one top-level `get_options` call
(each step of `runTasks` consumes one unit; a potential argument bounds the
number of steps by this value). -/
def innerFuel (net : Net) : Nat :=
  ((allIncoming net).length + 2) * ((allIncoming net).length + 2)

/-- src/analysis.py lines 39-40: `for edge in closed_edges:
get_options(net, edge, options, closed_edges)`.  Python list iteration is by
index and `closed_edges` grows while being iterated, so the loop also reaches
the edges appended by back-propagation; we model it with an explicit index. -/
def analyzeLoop (net : Net) : Nat → Nat → AnalysisState → AnalysisState × Nat × Bool
  | 0, _, st => (st, 0, false)
  | fuel + 1, i, st =>
    if h : i < st.closed.length then
      let r := runTasks net (innerFuel net) [Task.visit (st.closed.get ⟨i, h⟩)] st
      let r2 := analyzeLoop net fuel (i + 1) r.1
      (r2.1, r.2.1 + r2.2.1, r.2.2 && r2.2.2)
    else (st, 0, true)

/-- Fuel that provably suffices for the whole analysis loop. -/
def outerFuel (net : Net) (closed_edges : List String) : Nat :=
  closed_edges.length + (allIncoming net).dedup.length + 1

/-- src/analysis.py lines 35-42, `analyze_network`: starts from an empty
options dict and the caller's closed-edge list, and runs the (growing) loop.
Returns the final state (`options` is the function's return value, `closed`
is the caller's list after in-place mutation), the number of `get_options`
calls made, and whether the modelled fuel sufficed. -/
def analyze_network (net : Net) (closed_edges : List String) :
    AnalysisState × Nat × Bool :=
  analyzeLoop net (outerFuel net closed_edges) 0 ⟨[], closed_edges⟩

/-- The example network for the C1 counterexample: edges A and D are closed
by the user; B feeds A with alternatives {X} (A excluded as closed); X feeds
D with no open alternative, so X is back-propagated into the closure set
after X was already recorded as B's alternative. -/
def exNetC1 : Net :=
  [ ⟨"A", ["B"], []⟩,
    ⟨"B", [], ["A", "X"]⟩,
    ⟨"D", ["X"], []⟩,
    ⟨"X", ["B"], ["D"]⟩ ]

/-- The example network for the C5 counterexample: A is closed, B's only
outgoing edge is A, so B is back-propagated and then visited a second time by
the growing `for edge in closed_edges` loop. -/
def exNetC5 : Net :=
  [ ⟨"A", ["B"], []⟩,
    ⟨"B", [], ["A"]⟩ ]

/-- One proposed detour, src/analysis.py line 65: the dict
`{'origin': key, 'destination': value}`. -/
structure Redirection where
  origin : String
  destination : String
deriving DecidableEq

/-- `itertools.product(*lists)` on lists of edge ids: all ways to pick one
element per list, first list varying slowest (itertools order); the empty
argument list yields one empty tuple. -/
def product : List (List String) → List (List String)
  | [] => [[]]
  | l :: ls => l.flatMap (fun a => (product ls).map (fun rest => a :: rest))

/-- src/analysis.py lines 57-66, `generate_combinations`: the Cartesian
product of the options dict's value lists, each tuple zipped with the keys
into origin→destination redirections. -/
def generate_combinations (options : List (String × List String)) :
    List (List Redirection) :=
  let keys := options.map Prod.fst
  let lists := options.map Prod.snd
  (product lists).map (fun combination =>
    (keys.zip combination).map (fun kv => ⟨kv.1, kv.2⟩))

/-- src/main.py lines 60-84, `distribution`, inner while loop (lines 71-82).
The loop runs while `remaining_elements > 0`; each iteration either appends a
new batch of size `min(min_len, remaining)` (while fewer than `max_n_array`
batches exist) or adds one element to batch `i`, advancing `i` round-robin.
One fuel unit per iteration; `distribution` passes fuel = remaining, which
suffices because every iteration removes at least one remaining element
whenever `min_len ≥ 1`. -/
def distLoop (min_len max_n_array : Nat) :
    Nat → Nat → Nat → List Nat → List Nat
  | 0, _, _, arr => arr
  | _ + 1, 0, _, arr => arr
  | fuel + 1, r + 1, i, arr =>
    if arr.length < max_n_array then
      let amount := min min_len (r + 1)
      distLoop min_len max_n_array fuel (r + 1 - amount) i (arr ++ [amount])
    else
      let arr2 := arr.set i (arr.getD i 0 + 1)
      let i2 := if i + 1 = max_n_array then 0 else i + 1
      distLoop min_len max_n_array fuel r i2 arr2

/-- src/main.py lines 60-84, `distribution`: `min(num // min_len, max_n_array)`
initial batches of size `min_len`, then the remainder loop. -/
def distribution (num min_len max_n_array : Nat) : List Nat :=
  let n_array_with_min_len := min (num / min_len) max_n_array
  let remaining_elements := num - n_array_with_min_len * min_len
  let distributed_array := List.replicate n_array_with_min_len min_len
  distLoop min_len max_n_array remaining_elements remaining_elements 0
    distributed_array

/-- src/simulation.py lines 243-253: the scan
`for redirection in combination: if origin in route: if destination not in
route: ...; break` — the first redirection whose origin is on the route but
whose destination is not. -/
def findRedirect (combination : List Redirection) (route : List String) :
    Option Redirection :=
  combination.find? (fun r =>
    route.contains r.origin && !(route.contains r.destination))

/-- src/simulation.py lines 235-261, the body of `reroute_until_correct`'s
while loop.  `engine route r` models the route traci reports after
`setVia(veh, r.destination); rerouteTraveltime(veh)`.  Arguments: fuel,
`attempts` (the source's counter, starting at 1), the current route, and the
number of rerouting attempts performed so far (returned with the final
route).  The loop exits when the scan finds nothing, or — after performing
one more reroute — when `attempts > len(combination) * 2` (lines 255-259:
give up and keep the current route; no exception).  Fuel is one unit per
iteration; `reroute_until_correct` passes `2*len+2`, enough because
`attempts` grows by 1 per iteration and the loop exits once it passes
`2*len`. -/
def rerouteLoop (engine : List String → Redirection → List String)
    (combination : List Redirection) :
    Nat → Nat → List String → Nat → Nat × List String
  | 0, _, route, count => (count, route)
  | fuel + 1, attempts, route, count =>
    match findRedirect combination route with
    | none => (count, route)
    | some r =>
      let route2 := engine route r
      if combination.length * 2 < attempts then (count + 1, route2)
      else rerouteLoop engine combination fuel (attempts + 1) route2 (count + 1)

/-- src/simulation.py lines 235-261, `reroute_until_correct`: the loop with
`attempts = 1`, returning how many reroutes were requested and the route the
vehicle is left with. -/
def reroute_until_correct (engine : List String → Redirection → List String)
    (combination : List Redirection) (route : List String) :
    Nat × List String :=
  rerouteLoop engine combination (combination.length * 2 + 2) 1 route 0

/-- Street-closure notification strategies, src/simulation.py lines 22-24. -/
def NAVIGATION : Nat := 0

/-- Street-closure notification strategies, src/simulation.py lines 22-24. -/
def SIGN : Nat := 1

/-- What `simulate` does to one newly departed vehicle,
src/simulation.py lines 301-337. -/
inductive DepartAction where
  | removed
  | navigated (finalRoute : List String)
  | signQueued
  | unaffected
deriving DecidableEq

/-- src/simulation.py lines 302-337: the per-departed-vehicle body of
`simulate`'s step loop, given the strategy drawn for the vehicle (line 305)
and its planned route (line 311).  If the route's first edge is closed the
vehicle is removed and the loop continues with the next vehicle (lines
312-315), before any strategy handling; under NAVIGATION the bounded reroute
loop runs (line 328); under SIGN the vehicle is queued iff its route meets a
redirection origin (lines 334-337).  Returns the action together with the
number of rerouting attempts performed for this vehicle.  (`route[0]` in the
source presupposes a nonempty route, which SUMO guarantees; `headD ""`
stands for that first element.) -/
def handleDeparted (closed_edges : List String)
    (combination : List Redirection)
    (engine : List String → Redirection → List String)
    (strategy : Nat) (route : List String) : DepartAction × Nat :=
  if closed_edges.contains (route.headD "") then
    (DepartAction.removed, 0)
  else if strategy = NAVIGATION then
    let res := reroute_until_correct engine combination route
    (DepartAction.navigated res.2, res.1)
  else if strategy = SIGN then
    if route.any (fun e => (combination.map Redirection.origin).contains e) then
      (DepartAction.signQueued, 0)
    else (DepartAction.unaffected, 0)
  else (DepartAction.unaffected, 0)

/-- `len(set(l)) < len(l)` from src/simulation.py line 357: the route
contains a repeated edge id. -/
def hasDuplicates (l : List String) : Bool :=
  l.dedup.length < l.length

/-- Outcome of src/simulation.py lines 340-364 for one queued sign vehicle. -/
inductive SignAction where
  | keep
  | dropQueue
  | dropBoth
deriving DecidableEq

/-- src/simulation.py lines 340-364: the body of `for vehId in sign`.  If the
vehicle is still simulated, the first redirection whose origin is the
vehicle's current edge (line 345) is applied (`engine` models the route after
`setVia` + `rerouteTraveltime`, lines 346-347; no match leaves the route as
is), and then the duplicate check of lines 356-361 runs on the resulting
route: a loop means the vehicle leaves both the sign queue and the simulation
(`dropBoth`).  A vehicle no longer simulated just leaves the queue (lines
363-364, `dropQueue`). -/
def processSignVehicle (present : List String) (routes : String → List String)
    (routeIndex : String → Nat) (combination : List Redirection)
    (engine : List String → Redirection → List String) (v : String) :
    SignAction :=
  if present.contains v then
    let route := routes v
    let current := routeIndex v
    let newRoute :=
      match combination.find? (fun r => route.getD current "" == r.origin) with
      | some r => engine route r
      | none => route
    if hasDuplicates newRoute then SignAction.dropBoth else SignAction.keep
  else SignAction.dropQueue

/-- src/simulation.py lines 339-364: the whole `for vehId in sign` pass.
Python iterates the list by index while `sign.remove(vehId)` may shrink it,
so we carry the index explicitly: removal shifts later entries left and the
index still advances (the source's skip-after-remove behaviour).  Also
accumulates, in order, the vehicles removed from the simulation
(`traci.vehicle.remove`, line 360).  One fuel unit per iteration;
`signPass` passes the queue's length, which suffices since the index grows
every iteration and the list never grows. -/
def signPassAux (present : List String) (routes : String → List String)
    (routeIndex : String → Nat) (combination : List Redirection)
    (engine : List String → Redirection → List String) :
    Nat → List String → Nat → List String → List String × List String
  | 0, sign, _, removed => (sign, removed)
  | fuel + 1, sign, i, removed =>
    if h : i < sign.length then
      let v := sign.get ⟨i, h⟩
      match processSignVehicle present routes routeIndex combination engine v with
      | SignAction.keep =>
        signPassAux present routes routeIndex combination engine fuel
          sign (i + 1) removed
      | SignAction.dropQueue =>
        signPassAux present routes routeIndex combination engine fuel
          (sign.erase v) (i + 1) removed
      | SignAction.dropBoth =>
        signPassAux present routes routeIndex combination engine fuel
          (sign.erase v) (i + 1) (removed ++ [v])
    else (sign, removed)

/-- One whole sign pass over the queue, starting at index 0. -/
def signPass (present : List String) (routes : String → List String)
    (routeIndex : String → Nat) (combination : List Redirection)
    (engine : List String → Redirection → List String)
    (sign : List String) : List String × List String :=
  signPassAux present routes routeIndex combination engine sign.length sign 0 []

/-- src/simulation.py lines 138-148, `step_and_update`, projected on one
metric: if the step reported any per-vehicle samples, fold their mean into
the running mean with weight `n_steps`; `n_steps` increments every step
either way.  (The source stores floats; we compute in exact rationals, which
agrees on every claim input.) -/
def step_and_update (samples : List ℚ) (output : ℚ) (n_steps : Nat) :
    ℚ × Nat :=
  if samples.length ≠ 0 then
    let new_mean := samples.sum / (samples.length : ℚ)
    (((n_steps : ℚ) * output + new_mean) / ((n_steps : ℚ) + 1), n_steps + 1)
  else (output, n_steps + 1)

/-- The running means observed after each step when feeding the given
per-step sample lists through `step_and_update`, starting from output 0 at
`n_steps = 0` (the initial state set by src/simulation.py lines 85-94 and
131-135). -/
def runningMeans (steps : List (List ℚ)) : List ℚ :=
  (steps.foldl
    (fun acc samples =>
      let st := step_and_update samples acc.2.1 acc.2.2
      (acc.1 ++ [st.1], st.1, st.2))
    (([] : List ℚ), (0 : ℚ), (0 : Nat))).1

/-- src/simulation.py lines 293-296: at simulation start every edge of the
`closed_edges` list the caller handed over gets
`traci.edge.setDisallowed(edge, 'custom1')`; the edges disallowed for the
run are exactly that list. -/
def disallowedAfterSetup (closed_edges : List String) : List String :=
  closed_edges.foldl (fun acc e => acc ++ [e]) []

example :
    (analyze_network exNetC1 ["A", "D"]).1.options = [("B", ["X"])] := by decide

example :
    (analyze_network exNetC1 ["A", "D"]).1.closed = ["A", "D", "X", "B"] := by decide

example : (analyze_network exNetC5 ["A"]).2.1 = 3 := by decide

example : (analyze_network exNetC5 ["A"]).2.2 = true := by decide

example : generate_combinations [] = [[]] := by decide

example :
    generate_combinations [("k1", ["a", "b"]), ("k2", ["c", "d", "e"])] =
      [ [⟨"k1", "a"⟩, ⟨"k2", "c"⟩], [⟨"k1", "a"⟩, ⟨"k2", "d"⟩],
        [⟨"k1", "a"⟩, ⟨"k2", "e"⟩], [⟨"k1", "b"⟩, ⟨"k2", "c"⟩],
        [⟨"k1", "b"⟩, ⟨"k2", "d"⟩], [⟨"k1", "b"⟩, ⟨"k2", "e"⟩] ] := by decide

example : distribution 10 3 4 = [3, 3, 3, 1] := by decide

example : distribution 0 3 4 = [] := by decide

example : distribution 7 3 2 = [4, 3] := by decide

example :
    reroute_until_correct (fun route _ => route) [⟨"a", "b"⟩] ["a"] =
      (3, ["a"]) := by decide

example :
    handleDeparted ["c"] [] (fun route _ => route) NAVIGATION ["c", "d"] =
      (DepartAction.removed, 0) := by decide

example : runningMeans [[2], [4], [6]] = [2, 3, 4] := by
  norm_num [runningMeans, step_and_update]

/-! ## Helper lemmas -/

/-- Adding 1 to an entry of a list adds 1 to its sum. -/
lemma sum_set_add_one (l : List Nat) (i : Nat) (h : i < l.length) :
    (l.set i (l.getD i 0 + 1)).sum = l.sum + 1 := by
  induction l generalizing i with
  | nil => simp at h
  | cons a t ih =>
    cases i with
    | zero => simp [List.getD]; omega
    | succ j =>
      simp only [List.set_cons_succ, List.getD_cons_succ, List.sum_cons]
      have := ih j (by simpa using Nat.lt_of_succ_lt_succ h)
      omega

/-- The remainder loop of `distribution` keeps the running total and never
grows the array past `max_n_array`. -/
lemma distLoop_sum_length (min_len max_n_array : Nat) (hmin : 1 ≤ min_len) :
    ∀ fuel r i arr, r ≤ fuel → i < max_n_array → arr.length ≤ max_n_array →
      (distLoop min_len max_n_array fuel r i arr).sum = arr.sum + r ∧
        (distLoop min_len max_n_array fuel r i arr).length ≤ max_n_array := by
  intro fuel
  induction fuel with
  | zero =>
    intro r i arr hr hi ha
    have : r = 0 := Nat.le_zero.mp hr
    subst this
    simp [distLoop, ha]
  | succ fuel ih =>
    intro r i arr hr hi ha
    cases r with
    | zero => simp [distLoop, ha]
    | succ r0 =>
      simp only [distLoop]
      by_cases hlen : arr.length < max_n_array
      · rw [if_pos hlen]
        have hamt : 1 ≤ min min_len (r0 + 1) := le_min hmin (by omega)
        have hamt2 : min min_len (r0 + 1) ≤ r0 + 1 := min_le_right _ _
        have := ih (r0 + 1 - min min_len (r0 + 1)) i (arr ++ [min min_len (r0 + 1)])
          (by omega) hi (by simp; omega)
        rcases this with ⟨hs, hl⟩
        refine ⟨?_, hl⟩
        rw [hs]
        simp
        omega
      · rw [if_neg hlen]
        have hilt : i < arr.length := by omega
        have hset : (arr.set i (arr.getD i 0 + 1)).sum = arr.sum + 1 :=
          sum_set_add_one arr i hilt
        have hi2 : (if i + 1 = max_n_array then 0 else i + 1) < max_n_array := by
          split <;> omega
        have := ih r0 (if i + 1 = max_n_array then 0 else i + 1)
          (arr.set i (arr.getD i 0 + 1)) (by omega) hi2 (by simpa using ha)
        rcases this with ⟨hs, hl⟩
        exact ⟨by rw [hs, hset]; omega, hl⟩

/-- The bounded retry loop performs at most `count + (2·len + 2 − attempts)`
rerouting attempts in total when entered with the given counters. -/
lemma rerouteLoop_count_le (engine : List String → Redirection → List String)
    (combination : List Redirection) :
    ∀ fuel attempts route count,
      attempts ≤ combination.length * 2 + 1 →
      (rerouteLoop engine combination fuel attempts route count).1 + attempts ≤
        count + combination.length * 2 + 2 := by
  intro fuel
  induction fuel with
  | zero => intro attempts route count h; simp [rerouteLoop]; omega
  | succ fuel ih =>
    intro attempts route count h
    simp only [rerouteLoop]
    cases hf : findRedirect combination route with
    | none => simp; omega
    | some r =>
      simp only
      by_cases hcmp : combination.length * 2 < attempts
      · rw [if_pos hcmp]; simp; omega
      · rw [if_neg hcmp]
        have := ih (attempts + 1) (engine route r) (count + 1) (by omega)
        omega

/-- `foldl (· ++ [·])` from the empty list rebuilds its input. -/
lemma foldl_append_singleton (l acc : List String) :
    l.foldl (fun a e => a ++ [e]) acc = acc ++ l := by
  induction l generalizing acc with
  | nil => simp
  | cons x t ih =>
    simp only [List.foldl_cons]
    rw [ih]
    simp

/-! ## C4: work distribution -/

/-- C4: for `n ≥ 0`, `minBatch ≥ 1`, `maxWorkers ≥ 1`, `distribution` returns
batch sizes totalling exactly `n` with at most `maxWorkers` non-empty
batches; in particular `distribution 10 3 4` sums to 10 with at most 4
non-empty batches and `distribution 0 3 4` is empty. -/
theorem distribution_sum_and_workers (num min_len max_n_array : Nat)
    (hmin : 1 ≤ min_len) (hmax : 1 ≤ max_n_array) :
    (distribution num min_len max_n_array).sum = num ∧
      (distribution num min_len max_n_array).countP (fun b => b ≠ 0) ≤
        max_n_array ∧
      (distribution 10 3 4).sum = 10 ∧
      (distribution 10 3 4).countP (fun b => b ≠ 0) ≤ 4 ∧
      distribution 0 3 4 = [] := by
  have harr : (List.replicate (min (num / min_len) max_n_array) min_len).length ≤
      max_n_array := by
    simp [List.length_replicate]
  have hmul : min (num / min_len) max_n_array * min_len ≤ num := by
    calc min (num / min_len) max_n_array * min_len
        ≤ (num / min_len) * min_len :=
          Nat.mul_le_mul_right _ (min_le_left _ _)
      _ ≤ num := Nat.div_mul_le_self _ _
  have hspec := distLoop_sum_length min_len max_n_array hmin
    (num - min (num / min_len) max_n_array * min_len)
    (num - min (num / min_len) max_n_array * min_len) 0
    (List.replicate (min (num / min_len) max_n_array) min_len)
    (le_refl _) (by omega) harr
  rcases hspec with ⟨hs, hl⟩
  refine ⟨?_, ?_, by decide, by decide, by decide⟩
  · unfold distribution
    rw [hs, List.sum_replicate, smul_eq_mul]
    omega
  · unfold distribution
    exact le_trans (List.countP_le_length _) hl

/-- C4 witness: the hypotheses hold at `distribution 10 3 4` and the
conclusion follows. -/
theorem distribution_sum_and_workers_witness :
    (1 ≤ 3 ∧ 1 ≤ 4) ∧ (distribution 10 3 4).sum = 10 :=
  ⟨⟨by decide, by decide⟩,
    (distribution_sum_and_workers 10 3 4 (by decide) (by decide)).1⟩

/-! ## C3: the Cartesian product of the OptionMap -/

/-- The Cartesian product has as many tuples as the product of the list
lengths. -/
lemma product_length (ls : List (List String)) :
    (product ls).length = (ls.map List.length).prod := by
  induction ls with
  | nil => simp [product]
  | cons l ls ih =>
    have h1 : List.map
          (List.length ∘ fun a => List.map (fun rest => a :: rest) (product ls)) l =
        List.map (fun _ => (product ls).length) l := by
      apply List.map_congr_left
      intro a _
      simp [Function.comp]
    simp only [product, List.length_flatMap]
    rw [h1, List.map_const', List.sum_replicate, smul_eq_mul, ih]
    simp [List.prod_cons]

/-- Every tuple of the Cartesian product picks one element from each list, in
order. -/
lemma product_mem (ls : List (List String)) :
    ∀ c ∈ product ls, List.Forall₂ (fun l a => a ∈ l) ls c := by
  induction ls with
  | nil =>
    intro c hc
    simp [product] at hc
    subst hc
    exact List.Forall₂.nil
  | cons l ls ih =>
    intro c hc
    simp only [product, List.mem_flatMap, List.mem_map] at hc
    obtain ⟨a, ha, rest, hrest, hc⟩ := hc
    subst hc
    exact List.Forall₂.cons ha (ih rest hrest)

/-- Zipping the keys back onto a product tuple gives one redirection per key,
in key order, with the destination from that key's alternative list. -/
lemma zip_keys_forall₂ (options : List (String × List String)) :
    ∀ c, List.Forall₂ (fun l a => a ∈ l) (options.map Prod.snd) c →
      List.Forall₂
        (fun (p : String × List String) (r : Redirection) =>
          r.origin = p.1 ∧ r.destination ∈ p.2)
        options
        (((options.map Prod.fst).zip c).map (fun kv => ⟨kv.1, kv.2⟩)) := by
  induction options with
  | nil => intro c _; simp
  | cons p ps ih =>
    intro c hc
    cases hc with
    | cons ha htail =>
      rename_i a c'
      simp only [List.map_cons, List.zip_cons_cons]
      exact List.Forall₂.cons ⟨rfl, ha⟩ (ih c' htail)

/-- C3: for a non-empty OptionMap with value lists of lengths m1..mn,
`generate_combinations` returns exactly m1·…·mn combinations; every returned
combination has exactly one origin→destination redirection per key, in the
OptionMap's key order, with the destination drawn from that key's alternative
list; and with alternative-list lengths [2,3] there are exactly 6
combinations. -/
theorem generate_combinations_spec (options : List (String × List String))
    (hne : options ≠ []) :
    (generate_combinations options).length =
        (options.map (fun p => p.2.length)).prod ∧
      (∀ combo ∈ generate_combinations options,
        List.Forall₂
          (fun (p : String × List String) (r : Redirection) =>
            r.origin = p.1 ∧ r.destination ∈ p.2)
          options combo) ∧
      (generate_combinations
          [("k1", ["a", "b"]), ("k2", ["c", "d", "e"])]).length = 6 := by
  refine ⟨?_, ?_, by decide⟩
  · unfold generate_combinations
    rw [List.length_map, product_length, List.map_map]
    rfl
  · intro combo hcombo
    unfold generate_combinations at hcombo
    simp only [List.mem_map] at hcombo
    obtain ⟨c, hc, hcombo⟩ := hcombo
    subst hcombo
    exact zip_keys_forall₂ options c (product_mem _ c hc)

/-- C3 witness: the hypothesis holds at a concrete one-key OptionMap and the
[2,3] instance gives 6 combinations. -/
theorem generate_combinations_spec_witness :
    ([("k", ["a"])] : List (String × List String)) ≠ [] ∧
      (generate_combinations
          [("k1", ["a", "b"]), ("k2", ["c", "d", "e"])]).length = 6 :=
  ⟨by decide, (generate_combinations_spec [("k", ["a"])] (by decide)).2.2⟩

/-! ## Analysis invariants (for C1, C5, C10) -/

/-- A member list of a list of lists is no longer than the flattened list. -/
lemma length_le_length_flatten {α : Type} (l : List α) (L : List (List α))
    (h : l ∈ L) : l.length ≤ L.flatten.length := by
  induction L with
  | nil => cases h
  | cons hd tl ih =>
    simp only [List.flatten_cons, List.length_append]
    rcases List.mem_cons.mp h with h | h
    · subst h; omega
    · have := ih h
      omega

/-- Every id in an edge's incoming list is in `allIncoming`. -/
lemma mem_allIncoming {net : Net} {e : Edge} (he : e ∈ net) {c : String}
    (hc : c ∈ e.incoming) : c ∈ allIncoming net :=
  List.mem_flatten.mpr ⟨e.incoming, List.mem_map_of_mem Edge.incoming he, hc⟩

/-- An edge's incoming list is no longer than `allIncoming`. -/
lemma incoming_length_le {net : Net} {e : Edge} (he : e ∈ net) :
    e.incoming.length ≤ (allIncoming net).length :=
  length_le_length_flatten _ _ (List.mem_map_of_mem Edge.incoming he)

/-- The number of ids of `allIncoming` not yet closed: the decreasing measure
of the back-propagation recursion. -/
def freeInc (net : Net) (closed : List String) : Nat :=
  ((allIncoming net).dedup.filter (fun x => decide (x ∉ closed))).length

/-- Closing one more id from a duplicate-free list shrinks the not-yet-closed
filter by exactly one. -/
lemma filter_not_mem_append_singleton {l closed : List String} {c : String}
    (hnd : l.Nodup) (hc : c ∈ l) (hcl : c ∉ closed) :
    (l.filter (fun x => decide (x ∉ closed ++ [c]))).length + 1 =
      (l.filter (fun x => decide (x ∉ closed))).length := by
  induction l with
  | nil => cases hc
  | cons a t ih =>
    rcases List.nodup_cons.mp hnd with ⟨hat, hndt⟩
    by_cases hac : a = c
    · subst hac
      have heq : t.filter (fun x => decide (x ∉ closed ++ [a])) =
          t.filter (fun x => decide (x ∉ closed)) := by
        apply List.filter_congr
        intro x hx
        have hxa : x ≠ a := fun h => hat (h ▸ hx)
        simp [List.mem_append, hxa]
      rw [List.filter_cons_of_neg (by simp),
        List.filter_cons_of_pos (by simpa using hcl)]
      rw [heq]
      simp
    · have hct : c ∈ t := by
        rcases List.mem_cons.mp hc with h | h
        · exact absurd h.symm hac
        · exact h
      by_cases ha2 : a ∈ closed
      · rw [List.filter_cons_of_neg (by simp [List.mem_append, ha2]),
          List.filter_cons_of_neg (by simpa using ha2)]
        exact ih hndt hct
      · rw [List.filter_cons_of_pos (by simp [List.mem_append, hac, ha2]),
          List.filter_cons_of_pos (by simpa using ha2)]
        simp only [List.length_cons]
        have := ih hndt hct
        omega

/-- Appending a not-yet-closed id of `allIncoming` to the closed list
decrements `freeInc` by exactly one. -/
lemma freeInc_append {net : Net} {closed : List String} {c : String}
    (hc : c ∈ allIncoming net) (hcl : c ∉ closed) :
    freeInc net (closed ++ [c]) + 1 = freeInc net closed :=
  filter_not_mem_append_singleton (List.nodup_dedup _)
    (List.mem_dedup.mpr hc) hcl

/-- The closed list only grows during `runTasks`: the state it starts from is
a prefix of the state it ends in (this is the in-place `closed_edges.append`
of src/analysis.py line 31 — nothing is ever removed or reordered). -/
lemma runTasks_closed_mono (net : Net) :
    ∀ fuel tasks st,
      st.closed <+: (runTasks net fuel tasks st).1.closed := by
  intro fuel
  induction fuel with
  | zero =>
    intro tasks st
    cases tasks <;> simp [runTasks]
  | succ fuel ih =>
    intro tasks st
    cases tasks with
    | nil => simp [runTasks]
    | cons t rest =>
      cases t with
      | visit id =>
        simp only [runTasks]
        exact ih _ st
      | conn c =>
        simp only [runTasks]
        by_cases h1 : 0 <
            ((outgoingOf net c).filter (fun o => !(st.closed.contains o))).length
        · rw [if_pos h1]
          exact ih rest ⟨addAlternatives st.options c
            ((outgoingOf net c).filter (fun o => !(st.closed.contains o))),
            st.closed⟩
        · rw [if_neg h1]
          by_cases h2 : st.closed.contains c
          · rw [if_pos h2]
            exact ih rest st
          · rw [if_neg h2]
            exact (List.prefix_append st.closed [c]).trans
              (ih (Task.visit c :: rest) ⟨st.options, st.closed ++ [c]⟩)

/-- An edge found by `getEdge` belongs to the net. -/
lemma getEdge_mem {net : Net} {i : String} {e : Edge}
    (h : getEdge net i = some e) : e ∈ net :=
  List.mem_of_find?_eq_some h

/-- Every `conn` task on the stack names an id from some edge's incoming
list; `visit` spawns only such tasks. -/
def ConnsIn (net : Net) (tasks : List Task) : Prop :=
  ∀ c, Task.conn c ∈ tasks → c ∈ allIncoming net

lemma ConnsIn.tail {net : Net} {t : Task} {rest : List Task}
    (h : ConnsIn net (t :: rest)) : ConnsIn net rest :=
  fun c hc => h c (List.mem_cons_of_mem _ hc)

/-- The number of `visit` tasks on the stack. -/
def countVisits (tasks : List Task) : Nat :=
  tasks.countP (fun t => match t with | Task.visit _ => true | Task.conn _ => false)

lemma countVisits_append (a b : List Task) :
    countVisits (a ++ b) = countVisits a + countVisits b :=
  List.countP_append _ _ _

lemma countVisits_map_conn (l : List String) :
    countVisits (l.map Task.conn) = 0 := by
  apply List.countP_eq_zero.mpr
  intro t ht
  obtain ⟨c, _, rfl⟩ := List.mem_map.mp ht
  simp

lemma countVisits_visit_cons (i : String) (rest : List Task) :
    countVisits (Task.visit i :: rest) = countVisits rest + 1 := by
  simp [countVisits, List.countP_cons]

lemma countVisits_conn_cons (c : String) (rest : List Task) :
    countVisits (Task.conn c :: rest) = countVisits rest := by
  simp [countVisits, List.countP_cons]

/-- Counting calls: every `get_options` call is either one of the tasks it
was started with or paid for by one edge newly appended to the closed list
(each recursion of src/analysis.py line 32 follows the append of line 31). -/
lemma runTasks_count_le (net : Net) :
    ∀ fuel tasks st,
      (runTasks net fuel tasks st).2.1 + st.closed.length ≤
        countVisits tasks + (runTasks net fuel tasks st).1.closed.length := by
  intro fuel
  induction fuel with
  | zero =>
    intro tasks st
    cases tasks <;> simp [runTasks]
  | succ fuel ih =>
    intro tasks st
    cases tasks with
    | nil => simp [runTasks]
    | cons t rest =>
      cases t with
      | visit i =>
        simp only [runTasks]
        cases hE : getEdge net i with
        | none =>
          simp only [hE, List.map_nil, List.nil_append]
          have hih := ih rest st
          rw [countVisits_visit_cons]
          omega
        | some e =>
          simp only [hE]
          have hih := ih
            ((e.incoming.filter (fun c => !(st.closed.contains c))).map Task.conn
              ++ rest) st
          rw [countVisits_append, countVisits_map_conn] at hih
          rw [countVisits_visit_cons]
          omega
      | conn c =>
        simp only [runTasks]
        by_cases h1 : 0 <
            ((outgoingOf net c).filter (fun o => !(st.closed.contains o))).length
        · rw [if_pos h1]
          have hih := ih rest ⟨addAlternatives st.options c
            ((outgoingOf net c).filter (fun o => !(st.closed.contains o))),
            st.closed⟩
          rw [countVisits_conn_cons]
          exact hih
        · rw [if_neg h1]
          by_cases h2 : st.closed.contains c
          · rw [if_pos h2]
            have hih := ih rest st
            rw [countVisits_conn_cons]
            exact hih
          · rw [if_neg h2]
            have hih := ih (Task.visit c :: rest) ⟨st.options, st.closed ++ [c]⟩
            rw [countVisits_visit_cons] at hih
            simp only [List.length_append, List.length_cons,
              List.length_nil] at hih
            rw [countVisits_conn_cons]
            omega

/-- Weight of one pending task for the termination measure: a `visit` may
spawn up to `|allIncoming|` connection tasks, a `conn` at most one visit paid
for by the closure append. -/
def taskWeight (a : Nat) : Task → Nat
  | Task.visit _ => a + 2
  | Task.conn _ => 1

/-- Termination measure for `runTasks`: weighted pending work plus the
not-yet-closed incoming ids, each worth one future visit plus its spawned
connections.  Strictly decreases at every step. -/
def potential (net : Net) (tasks : List Task) (closed : List String) : Nat :=
  (tasks.map (taskWeight (allIncoming net).length)).sum +
    ((allIncoming net).length + 2) * freeInc net closed

lemma sum_taskWeight_map_conn (a : Nat) (l : List String) :
    ((l.map Task.conn).map (taskWeight a)).sum = l.length := by
  induction l with
  | nil => simp
  | cons x t ih =>
    simp only [List.map_cons, List.sum_cons, taskWeight, List.length_cons]
    rw [ih]
    omega

/-- With fuel exceeding the potential, `runTasks` finishes its work: the fuel
never runs out (the Python recursion needs no fuel; this shows the modelled
fuel is never what ends the analysis). -/
lemma runTasks_complete (net : Net) :
    ∀ fuel tasks st, ConnsIn net tasks →
      potential net tasks st.closed < fuel →
      (runTasks net fuel tasks st).2.2 = true := by
  intro fuel
  induction fuel with
  | zero =>
    intro tasks st _ hp
    exact absurd hp (Nat.not_lt_zero _)
  | succ fuel ih =>
    intro tasks st hconn hp
    cases tasks with
    | nil => simp [runTasks]
    | cons t rest =>
      cases t with
      | visit i =>
        simp only [runTasks]
        cases hE : getEdge net i with
        | none =>
          simp only [hE, List.map_nil, List.nil_append]
          apply ih rest st hconn.tail
          simp only [potential, List.map_cons, List.sum_cons, taskWeight] at hp ⊢
          omega
        | some e =>
          simp only [hE]
          apply ih _ st
          · intro c hc
            rcases List.mem_append.mp hc with hc | hc
            · obtain ⟨c0, hc0, hceq⟩ := List.mem_map.mp hc
              cases hceq
              exact mem_allIncoming (getEdge_mem hE) (List.mem_of_mem_filter hc0)
            · exact hconn.tail c hc
          · have hlen : (e.incoming.filter
                (fun c => !(st.closed.contains c))).length ≤
                (allIncoming net).length :=
              le_trans (List.length_filter_le _ _)
                (incoming_length_le (getEdge_mem hE))
            simp only [potential, List.map_cons, List.sum_cons, taskWeight,
              List.map_append, List.sum_append,
              sum_taskWeight_map_conn] at hp ⊢
            omega
      | conn c =>
        simp only [runTasks]
        by_cases h1 : 0 <
            ((outgoingOf net c).filter (fun o => !(st.closed.contains o))).length
        · rw [if_pos h1]
          apply ih rest _ hconn.tail
          simp only [potential, List.map_cons, List.sum_cons, taskWeight] at hp ⊢
          omega
        · rw [if_neg h1]
          by_cases h2 : st.closed.contains c
          · rw [if_pos h2]
            apply ih rest st hconn.tail
            simp only [potential, List.map_cons, List.sum_cons, taskWeight]
              at hp ⊢
            omega
          · rw [if_neg h2]
            have hcA : c ∈ allIncoming net := hconn c (List.mem_cons_self _ _)
            have hcnot : c ∉ st.closed := by simpa using h2
            have hfree : freeInc net (st.closed ++ [c]) + 1 =
                freeInc net st.closed := freeInc_append hcA hcnot
            apply ih (Task.visit c :: rest) ⟨st.options, st.closed ++ [c]⟩
            · intro c2 hc2
              rcases List.mem_cons.mp hc2 with hc2 | hc2
              · cases hc2
              · exact hconn.tail c2 hc2
            · simp only [potential, List.map_cons, List.sum_cons, taskWeight]
                at hp ⊢
              rw [← hfree, Nat.mul_succ] at hp
              omega

/-- The closed-list length plus the remaining free incoming ids is conserved
by `runTasks`: each append closes exactly one previously free id. -/
lemma runTasks_lenfree (net : Net) :
    ∀ fuel tasks st, ConnsIn net tasks →
      (runTasks net fuel tasks st).1.closed.length +
          freeInc net (runTasks net fuel tasks st).1.closed =
        st.closed.length + freeInc net st.closed := by
  intro fuel
  induction fuel with
  | zero =>
    intro tasks st _
    cases tasks <;> simp [runTasks]
  | succ fuel ih =>
    intro tasks st hconn
    cases tasks with
    | nil => simp [runTasks]
    | cons t rest =>
      cases t with
      | visit i =>
        simp only [runTasks]
        cases hE : getEdge net i with
        | none =>
          simp only [hE, List.map_nil, List.nil_append]
          exact ih rest st hconn.tail
        | some e =>
          simp only [hE]
          apply ih _ st
          intro c hc
          rcases List.mem_append.mp hc with hc | hc
          · obtain ⟨c0, hc0, hceq⟩ := List.mem_map.mp hc
            cases hceq
            exact mem_allIncoming (getEdge_mem hE) (List.mem_of_mem_filter hc0)
          · exact hconn.tail c hc
      | conn c =>
        simp only [runTasks]
        by_cases h1 : 0 <
            ((outgoingOf net c).filter (fun o => !(st.closed.contains o))).length
        · rw [if_pos h1]
          exact ih rest _ hconn.tail
        · rw [if_neg h1]
          by_cases h2 : st.closed.contains c
          · rw [if_pos h2]
            exact ih rest st hconn.tail
          · rw [if_neg h2]
            have hcA : c ∈ allIncoming net := hconn c (List.mem_cons_self _ _)
            have hcnot : c ∉ st.closed := by simpa using h2
            have hfree : freeInc net (st.closed ++ [c]) + 1 =
                freeInc net st.closed := freeInc_append hcA hcnot
            have hih := ih (Task.visit c :: rest) ⟨st.options, st.closed ++ [c]⟩
              (by
                intro c2 hc2
                rcases List.mem_cons.mp hc2 with hc2 | hc2
                · cases hc2
                · exact hconn.tail c2 hc2)
            simp only [List.length_append, List.length_cons, List.length_nil]
              at hih
            omega

/-- In a well-formed net every incoming id is a net edge id, so all of
`allIncoming` is. -/
lemma allIncoming_sub_netIds {net : Net}
    (hwf : ∀ e ∈ net, ∀ c ∈ e.incoming, c ∈ netIds net) :
    ∀ c ∈ allIncoming net, c ∈ netIds net := by
  intro c hc
  obtain ⟨l, hl, hcl⟩ := List.mem_flatten.mp hc
  obtain ⟨e, he, rfl⟩ := List.mem_map.mp hl
  exact hwf e he c hcl

/-- The closed list stays duplicate-free (line 30's guard: an id is appended
only if not already closed) and, in a well-formed net, stays inside the net's
edge ids. -/
lemma runTasks_closed_nodup_sub (net : Net)
    (hwf : ∀ e ∈ net, ∀ c ∈ e.incoming, c ∈ netIds net) :
    ∀ fuel tasks st, ConnsIn net tasks → st.closed.Nodup →
      (∀ x ∈ st.closed, x ∈ netIds net) →
      (runTasks net fuel tasks st).1.closed.Nodup ∧
        ∀ x ∈ (runTasks net fuel tasks st).1.closed, x ∈ netIds net := by
  intro fuel
  induction fuel with
  | zero =>
    intro tasks st _ hnd hsub
    cases tasks <;> simpa [runTasks] using ⟨hnd, hsub⟩
  | succ fuel ih =>
    intro tasks st hconn hnd hsub
    cases tasks with
    | nil => simpa [runTasks] using ⟨hnd, hsub⟩
    | cons t rest =>
      cases t with
      | visit i =>
        simp only [runTasks]
        cases hE : getEdge net i with
        | none =>
          simp only [hE, List.map_nil, List.nil_append]
          exact ih rest st hconn.tail hnd hsub
        | some e =>
          simp only [hE]
          apply ih _ st _ hnd hsub
          intro c hc
          rcases List.mem_append.mp hc with hc | hc
          · obtain ⟨c0, hc0, hceq⟩ := List.mem_map.mp hc
            cases hceq
            exact mem_allIncoming (getEdge_mem hE) (List.mem_of_mem_filter hc0)
          · exact hconn.tail c hc
      | conn c =>
        simp only [runTasks]
        by_cases h1 : 0 <
            ((outgoingOf net c).filter (fun o => !(st.closed.contains o))).length
        · rw [if_pos h1]
          exact ih rest _ hconn.tail hnd hsub
        · rw [if_neg h1]
          by_cases h2 : st.closed.contains c
          · rw [if_pos h2]
            exact ih rest st hconn.tail hnd hsub
          · rw [if_neg h2]
            have hcA : c ∈ allIncoming net := hconn c (List.mem_cons_self _ _)
            have hcnot : c ∉ st.closed := by simpa using h2
            apply ih (Task.visit c :: rest) ⟨st.options, st.closed ++ [c]⟩
            · intro c2 hc2
              rcases List.mem_cons.mp hc2 with hc2 | hc2
              · cases hc2
              · exact hconn.tail c2 hc2
            · refine List.nodup_append.mpr ⟨hnd, List.nodup_singleton c, ?_⟩
              intro a ha hb
              rw [List.mem_singleton] at hb
              subst hb
              exact hcnot ha
            · intro x hx
              rcases List.mem_append.mp hx with hx | hx
              · exact hsub x hx
              · rw [List.mem_singleton] at hx
                subst hx
                exact allIncoming_sub_netIds hwf x hcA

/-- Anything in the append-if-absent result was already there or is one of
the appended alternatives. -/
lemma appendAbsent_mem :
    ∀ (alts cur : List String) (a : String),
      a ∈ appendAbsent cur alts → a ∈ cur ∨ a ∈ alts := by
  intro alts
  induction alts with
  | nil =>
    intro cur a h
    exact Or.inl (by simpa [appendAbsent] using h)
  | cons x t ih =>
    intro cur a h
    have h2 := ih (if cur.contains x then cur else cur ++ [x]) a
      (by simpa [appendAbsent, List.foldl_cons] using h)
    rcases h2 with h2 | h2
    · by_cases hx : cur.contains x
      · rw [if_pos hx] at h2
        exact Or.inl h2
      · rw [if_neg hx] at h2
        rcases List.mem_append.mp h2 with h2 | h2
        · exact Or.inl h2
        · rw [List.mem_singleton] at h2
          subst h2
          exact Or.inr (List.mem_cons_self _ _)
    · exact Or.inr (List.mem_cons_of_mem _ h2)

/-- The OptionMap invariant relative to the initially closed list: every
recorded alternative is an outgoing edge of its key and was open when the
analysis began. -/
def OptionsInv (net : Net) (closed0 : List String)
    (options : List (String × List String)) : Prop :=
  ∀ p ∈ options, ∀ a ∈ p.2, a ∈ outgoingOf net p.1 ∧ a ∉ closed0

/-- `addAlternatives` preserves the OptionMap invariant when the added
alternatives satisfy it for their key. -/
lemma addAlternatives_inv {net : Net} {closed0 : List String}
    {options : List (String × List String)} {key : String}
    {alts : List String}
    (hinv : OptionsInv net closed0 options)
    (halts : ∀ a ∈ alts, a ∈ outgoingOf net key ∧ a ∉ closed0) :
    OptionsInv net closed0 (addAlternatives options key alts) := by
  intro p hp a ha
  unfold addAlternatives at hp
  by_cases hany : options.any (fun q => q.1 == key)
  · rw [if_pos hany] at hp
    obtain ⟨q, hq, hpe⟩ := List.mem_map.mp hp
    by_cases hqk : q.1 == key
    · rw [if_pos hqk] at hpe
      subst hpe
      rcases appendAbsent_mem alts q.2 a ha with h | h
      · exact hinv q hq a h
      · have : q.1 = key := by simpa using hqk
        rw [this]
        exact halts a h
    · rw [if_neg hqk] at hpe
      subst hpe
      exact hinv q hq a ha
  · rw [if_neg hany] at hp
    rcases List.mem_append.mp hp with hp | hp
    · exact hinv p hp a ha
    · rw [List.mem_singleton] at hp
      subst hp
      rcases appendAbsent_mem alts [] a ha with h | h
      · cases h
      · exact halts a h

/-- `runTasks` preserves the OptionMap invariant: alternatives are recorded
only from the key's outgoing edges after filtering out everything currently
closed — which includes everything initially closed. -/
lemma runTasks_options_inv (net : Net) (closed0 : List String) :
    ∀ fuel tasks st, (∀ x ∈ closed0, x ∈ st.closed) →
      OptionsInv net closed0 st.options →
      OptionsInv net closed0 (runTasks net fuel tasks st).1.options := by
  intro fuel
  induction fuel with
  | zero =>
    intro tasks st _ hinv
    cases tasks <;> simpa [runTasks] using hinv
  | succ fuel ih =>
    intro tasks st hsub hinv
    cases tasks with
    | nil => simpa [runTasks] using hinv
    | cons t rest =>
      cases t with
      | visit i =>
        simp only [runTasks]
        cases hE : getEdge net i with
        | none =>
          simp only [hE, List.map_nil, List.nil_append]
          exact ih rest st hsub hinv
        | some e =>
          simp only [hE]
          exact ih _ st hsub hinv
      | conn c =>
        simp only [runTasks]
        by_cases h1 : 0 <
            ((outgoingOf net c).filter (fun o => !(st.closed.contains o))).length
        · rw [if_pos h1]
          apply ih rest ⟨addAlternatives st.options c
            ((outgoingOf net c).filter (fun o => !(st.closed.contains o))),
            st.closed⟩ hsub
          apply addAlternatives_inv hinv
          intro a ha
          have hmem := List.mem_of_mem_filter ha
          have hpred := List.of_mem_filter ha
          refine ⟨hmem, fun hc0 => ?_⟩
          have : a ∉ st.closed := by simpa using hpred
          exact this (hsub a hc0)
        · rw [if_neg h1]
          by_cases h2 : st.closed.contains c
          · rw [if_pos h2]
            exact ih rest st hsub hinv
          · rw [if_neg h2]
            apply ih (Task.visit c :: rest) ⟨st.options, st.closed ++ [c]⟩
            · intro x hx
              exact List.mem_append_left _ (hsub x hx)
            · exact hinv

/-- A single top-level `get_options` call spawns no `conn` tasks. -/
lemma ConnsIn_visit (net : Net) (i : String) :
    ConnsIn net [Task.visit i] := by
  intro c hc
  rcases List.mem_cons.mp hc with hc | hc
  · cases hc
  · cases hc

/-- The analysis loop only appends to the closed list. -/
lemma analyzeLoop_closed_mono (net : Net) :
    ∀ fuel i st, st.closed <+: (analyzeLoop net fuel i st).1.closed := by
  intro fuel
  induction fuel with
  | zero => intro i st; simp [analyzeLoop]
  | succ fuel ih =>
    intro i st
    simp only [analyzeLoop]
    split
    · exact (runTasks_closed_mono net (innerFuel net) _ st).trans (ih _ _)
    · exact List.prefix_rfl

/-- With the chosen fuel values, the whole analysis completes for every net
and every initial closed list: neither the inner nor the outer fuel is ever
exhausted. -/
lemma analyzeLoop_complete (net : Net) :
    ∀ fuel i st, i ≤ st.closed.length →
      st.closed.length + freeInc net st.closed < fuel + i →
      (analyzeLoop net fuel i st).2.2 = true := by
  intro fuel
  induction fuel with
  | zero =>
    intro i st hi hlt
    have hfree : 0 ≤ freeInc net st.closed := Nat.zero_le _
    omega
  | succ fuel ih =>
    intro i st hi hlt
    simp only [analyzeLoop]
    split
    · rename_i hcond
      have hA : freeInc net st.closed ≤ (allIncoming net).length :=
        le_trans (List.length_filter_le _ _)
          ((List.dedup_sublist _).length_le)
      have hpot : potential net [Task.visit (st.closed.get ⟨i, hcond⟩)]
          st.closed < innerFuel net := by
        set a := (allIncoming net).length with ha
        have m1 : (a + 2) * freeInc net st.closed ≤ (a + 2) * a :=
          Nat.mul_le_mul_left _ hA
        have m2 : (a + 2) * (a + 1) < (a + 2) * (a + 2) :=
          mul_lt_mul_of_pos_left (by omega) (by omega)
        have m3 : (a + 2) * (a + 1) = (a + 2) * a + (a + 2) := by ring
        simp only [potential, innerFuel, List.map_cons, List.map_nil,
          List.sum_cons, List.sum_nil, taskWeight, ← ha]
        omega
      have hok1 : (runTasks net (innerFuel net)
          [Task.visit (st.closed.get ⟨i, hcond⟩)] st).2.2 = true :=
        runTasks_complete net (innerFuel net) _ st (ConnsIn_visit net _) hpot
      have hlenfree := runTasks_lenfree net (innerFuel net)
        [Task.visit (st.closed.get ⟨i, hcond⟩)] st (ConnsIn_visit net _)
      have hpre := runTasks_closed_mono net (innerFuel net)
        [Task.visit (st.closed.get ⟨i, hcond⟩)] st
      have hlen := hpre.length_le
      have hok2 := ih (i + 1)
        (runTasks net (innerFuel net)
          [Task.visit (st.closed.get ⟨i, hcond⟩)] st).1
        (by omega) (by omega)
      rw [hok1, hok2]
      rfl
    · rfl

/-- The number of `get_options` calls of the whole analysis, counted against
the final closed list: each loop index costs one call, each appended edge one
more. -/
lemma analyzeLoop_count_le (net : Net) :
    ∀ fuel i st, i ≤ st.closed.length →
      (analyzeLoop net fuel i st).2.1 + i + st.closed.length ≤
        2 * (analyzeLoop net fuel i st).1.closed.length := by
  intro fuel
  induction fuel with
  | zero =>
    intro i st hi
    simp only [analyzeLoop]
    omega
  | succ fuel ih =>
    intro i st hi
    simp only [analyzeLoop]
    split
    · rename_i hcond
      have hcnt := runTasks_count_le net (innerFuel net)
        [Task.visit (st.closed.get ⟨i, hcond⟩)] st
      have hcv : countVisits [Task.visit (st.closed.get ⟨i, hcond⟩)] = 1 := by
        simp [countVisits, List.countP_cons]
      rw [hcv] at hcnt
      have hpre := runTasks_closed_mono net (innerFuel net)
        [Task.visit (st.closed.get ⟨i, hcond⟩)] st
      have hlen := hpre.length_le
      have hih := ih (i + 1)
        (runTasks net (innerFuel net)
          [Task.visit (st.closed.get ⟨i, hcond⟩)] st).1
        (by omega)
      dsimp only
      omega
    · dsimp only
      omega

/-- The final closed list is duplicate-free and, in a well-formed net, made
of net edge ids. -/
lemma analyzeLoop_closed_nodup_sub (net : Net)
    (hwf : ∀ e ∈ net, ∀ c ∈ e.incoming, c ∈ netIds net) :
    ∀ fuel i st, st.closed.Nodup → (∀ x ∈ st.closed, x ∈ netIds net) →
      (analyzeLoop net fuel i st).1.closed.Nodup ∧
        ∀ x ∈ (analyzeLoop net fuel i st).1.closed, x ∈ netIds net := by
  intro fuel
  induction fuel with
  | zero =>
    intro i st hnd hsub
    exact ⟨hnd, hsub⟩
  | succ fuel ih =>
    intro i st hnd hsub
    simp only [analyzeLoop]
    split
    · rename_i hcond
      have h1 := runTasks_closed_nodup_sub net hwf (innerFuel net)
        [Task.visit (st.closed.get ⟨i, hcond⟩)] st (ConnsIn_visit net _)
        hnd hsub
      exact ih (i + 1) _ h1.1 h1.2
    · exact ⟨hnd, hsub⟩

/-- The final OptionMap only records alternatives taken from the key's
outgoing edges while they were still open, so never an initially closed
edge. -/
lemma analyzeLoop_options_inv (net : Net) (closed0 : List String) :
    ∀ fuel i st, (∀ x ∈ closed0, x ∈ st.closed) →
      OptionsInv net closed0 st.options →
      OptionsInv net closed0 (analyzeLoop net fuel i st).1.options := by
  intro fuel
  induction fuel with
  | zero =>
    intro i st _ hinv
    exact hinv
  | succ fuel ih =>
    intro i st hsub hinv
    simp only [analyzeLoop]
    split
    · rename_i hcond
      have hpre := runTasks_closed_mono net (innerFuel net)
        [Task.visit (st.closed.get ⟨i, hcond⟩)] st
      apply ih (i + 1)
      · intro x hx
        exact hpre.subset (hsub x hx)
      · exact runTasks_options_inv net closed0 (innerFuel net)
          [Task.visit (st.closed.get ⟨i, hcond⟩)] st hsub hinv
    · exact hinv

/-- A duplicate-free list contained in another list is no longer than it. -/
lemma nodup_subset_length {l L : List String} (hnd : l.Nodup)
    (hsub : ∀ x ∈ l, x ∈ L) : l.length ≤ L.length := by
  have h1 : l.toFinset.card = l.length := List.toFinset_card_of_nodup hnd
  have h2 : l.toFinset ⊆ L.toFinset := by
    intro x hx
    rw [List.mem_toFinset] at hx ⊢
    exact hsub x hx
  have h3 : l.toFinset.card ≤ L.toFinset.card := Finset.card_le_card h2
  have h4 : L.toFinset.card ≤ L.length := List.toFinset_card_le L
  omega

/-! ## C1: OptionMap values versus the closure set -/

/-- C1 counterexample: on the four-edge network `exNetC1` with user closures
{A, D}, the analysis returns an OptionMap mapping B to [X] while X is in the
final closure set (X was back-propagated after being recorded as B's
alternative), so `analyze_network`'s OptionMap can contain an edge of the
final ClosureSet. -/
theorem analyze_network_closed_value_example :
    ("B", ["X"]) ∈ (analyze_network exNetC1 ["A", "D"]).1.options ∧
      "X" ∈ ["X"] ∧
      "X" ∈ (analyze_network exNetC1 ["A", "D"]).1.closed := by decide

/-- C1 (amended): every alternative recorded in the OptionMap is one of its
key's outgoing edges — so it can equal its key only if the network lists an
edge among its own successors, which sumolib road networks do not — and it
was open when the analysis started: it is never an edge of the initial
closed set, though it may be an edge that back-propagation closes later. -/
theorem analyze_network_options_open_at_start
    (net : Net) (closed_edges : List String) (p : String × List String)
    (a : String) (hp : p ∈ (analyze_network net closed_edges).1.options)
    (ha : a ∈ p.2) :
    a ∈ outgoingOf net p.1 ∧ a ∉ closed_edges := by
  have hinv := analyzeLoop_options_inv net closed_edges
    (outerFuel net closed_edges) 0 ⟨[], closed_edges⟩
    (fun x hx => hx)
    (by intro q hq; exact absurd hq (List.not_mem_nil q))
  exact hinv p hp a ha

/-- C1 witness: on `exNetC1`, the recorded alternative X under key B is one
of B's outgoing edges and is not among the initially closed {A, D}. -/
theorem analyze_network_options_open_at_start_witness :
    ("B", ["X"]) ∈ (analyze_network exNetC1 ["A", "D"]).1.options ∧
      ("X" ∈ outgoingOf exNetC1 "B" ∧ "X" ∉ (["A", "D"] : List String)) :=
  ⟨by decide,
    analyze_network_options_open_at_start exNetC1 ["A", "D"] ("B", ["X"]) "X"
      (by decide) (by decide)⟩

/-! ## C5: termination and the number of get_options calls -/

/-- C5 counterexample: on the two-edge network `exNetC5` with closure {A},
`get_options` is called 3 times — edge B is examined once when it is
back-propagated (line 32) and once more when the growing
`for edge in closed_edges` loop reaches it — exceeding the number of edges
of the network. -/
theorem analyze_network_call_count_example :
    ¬ ((analyze_network exNetC5 ["A"]).2.1 ≤ exNetC5.length) := by decide

/-- C5 (amended): for every network and every duplicate-free closed-edge set
naming network edges, the analysis terminates (the modelled fuel never runs
out), an edge enters the closure set at most once, and the number of
`get_options` calls is at most `2 ·  |edges|`: a back-propagated edge is
examined twice — once when discovered and once more by the loop over the
growing closed list — never more. -/
theorem analyze_network_terminates_bounded_calls
    (net : Net) (closed_edges : List String)
    (hwf : ∀ e ∈ net, ∀ c ∈ e.incoming, c ∈ netIds net)
    (hnd : closed_edges.Nodup)
    (hsub : ∀ x ∈ closed_edges, x ∈ netIds net) :
    (analyze_network net closed_edges).2.2 = true ∧
      (analyze_network net closed_edges).1.closed.Nodup ∧
      (analyze_network net closed_edges).2.1 ≤ 2 * net.length := by
  have hfree : freeInc net closed_edges ≤ (allIncoming net).dedup.length :=
    List.length_filter_le _ _
  have hcomplete := analyzeLoop_complete net (outerFuel net closed_edges) 0
    ⟨[], closed_edges⟩ (Nat.zero_le _)
    (by
      simp only [outerFuel]
      omega)
  have hns := analyzeLoop_closed_nodup_sub net hwf (outerFuel net closed_edges)
    0 ⟨[], closed_edges⟩ hnd hsub
  have hcount := analyzeLoop_count_le net (outerFuel net closed_edges) 0
    ⟨[], closed_edges⟩ (Nat.zero_le _)
  have hFle : (analyzeLoop net (outerFuel net closed_edges) 0
      ⟨[], closed_edges⟩).1.closed.length ≤ net.length := by
    have h := nodup_subset_length hns.1 hns.2
    simpa [netIds] using h
  refine ⟨hcomplete, hns.1, ?_⟩
  unfold analyze_network
  omega

/-- C5 witness: the hypotheses hold on `exNetC5` with closure {A} and the
analysis there completes, keeps the closure set duplicate-free and makes at
most 4 calls. -/
theorem analyze_network_terminates_bounded_calls_witness :
    (∀ e ∈ exNetC5, ∀ c ∈ e.incoming, c ∈ netIds exNetC5) ∧
      ((analyze_network exNetC5 ["A"]).2.2 = true ∧
        (analyze_network exNetC5 ["A"]).1.closed.Nodup ∧
        (analyze_network exNetC5 ["A"]).2.1 ≤ 2 * exNetC5.length) :=
  ⟨by decide,
    analyze_network_terminates_bounded_calls exNetC5 ["A"] (by decide)
      (by decide) (by decide)⟩

/-! ## C10: the caller's closed list after analysis -/

/-- C10: `analyze_network` only appends to the caller's closed-edge list:
the list passed in is a prefix of the list after analysis (the appended
suffix being exactly the back-propagated functionally-closed edges), and the
edges a subsequent simulation disallows (src/simulation.py lines 293-296) are
exactly that augmented list. -/
theorem analyze_network_closed_list_extended
    (net : Net) (closed_edges : List String) :
    closed_edges <+: (analyze_network net closed_edges).1.closed ∧
      disallowedAfterSetup (analyze_network net closed_edges).1.closed =
        (analyze_network net closed_edges).1.closed := by
  constructor
  · exact analyzeLoop_closed_mono net (outerFuel net closed_edges) 0
      ⟨[], closed_edges⟩
  · unfold disallowedAfterSetup
    rw [foldl_append_singleton]
    rfl

/-! ## C2: generate_combinations on the empty OptionMap -/

/-- C2 counterexample: `generate_combinations` applied to an empty OptionMap
does NOT return the empty sequence — the nullary Cartesian product is a
single empty tuple. -/
theorem c2_counterexample :
    ¬ (generate_combinations [] = []) := by decide

/-- C2 (amended): `generate_combinations` on an empty OptionMap returns
exactly one combination, the empty combination — `itertools.product()` with
no arguments yields one empty tuple — so a zero-option network yields one
empty redirect scenario, not zero. -/
theorem generate_combinations_empty :
    generate_combinations [] = [[]] := by decide

/-! ## C8: sign-strategy loop removal -/

/-- The sign pass never adds vehicles to the queue: its resulting queue is a
sublist of the queue it started from. -/
lemma signPassAux_fst_sublist (present : List String)
    (routes : String → List String) (routeIndex : String → Nat)
    (combination : List Redirection)
    (engine : List String → Redirection → List String) :
    ∀ fuel sign i removed,
      List.Sublist
        (signPassAux present routes routeIndex combination engine
          fuel sign i removed).1 sign := by
  intro fuel
  induction fuel with
  | zero => intro sign i removed; simp [signPassAux]
  | succ fuel ih =>
    intro sign i removed
    simp only [signPassAux]
    split
    · cases hp : processSignVehicle present routes routeIndex combination engine
        (sign.get ⟨i, by assumption⟩) with
      | keep => exact ih sign (i + 1) removed
      | dropQueue =>
        exact (ih _ (i + 1) removed).trans (List.erase_sublist _ _)
      | dropBoth =>
        exact (ih _ (i + 1) _).trans (List.erase_sublist _ _)
    · exact List.Sublist.refl _

/-- The removed-vehicle log only grows during the sign pass. -/
lemma signPassAux_removed_sub (present : List String)
    (routes : String → List String) (routeIndex : String → Nat)
    (combination : List Redirection)
    (engine : List String → Redirection → List String) :
    ∀ fuel sign i removed x, x ∈ removed →
      x ∈ (signPassAux present routes routeIndex combination engine
          fuel sign i removed).2 := by
  intro fuel
  induction fuel with
  | zero => intro sign i removed x hx; simpa [signPassAux] using hx
  | succ fuel ih =>
    intro sign i removed x hx
    simp only [signPassAux]
    split
    · cases hp : processSignVehicle present routes routeIndex combination engine
        (sign.get ⟨i, by assumption⟩) with
      | keep => exact ih sign (i + 1) removed x hx
      | dropQueue => exact ih _ (i + 1) removed x hx
      | dropBoth => exact ih _ (i + 1) _ x (by simp [hx])
    · exact hx

/-- C8: under the sign strategy, a queued vehicle that is redirected in a
step (it is still simulated and a redirection origin matches its current
edge) and whose post-redirect route contains a repeated edge id is removed
from the simulation (it appears in the removal log) and removed from the
sign queue, so later steps — which only iterate the queue — never retry it;
the removal is per-vehicle and the pass continues normally. -/
theorem signPass_loop_vehicle_removed (present : List String)
    (routes : String → List String) (routeIndex : String → Nat)
    (combination : List Redirection)
    (engine : List String → Redirection → List String)
    (fuel i : Nat) (sign removed : List String) (v : String) (r : Redirection)
    (hfuel : 0 < fuel) (hnd : sign.Nodup) (hi : i < sign.length)
    (hv : sign.get ⟨i, hi⟩ = v)
    (hpres : v ∈ present)
    (hfind : combination.find?
        (fun red => (routes v).getD (routeIndex v) "" == red.origin) = some r)
    (hdup : hasDuplicates (engine (routes v) r) = true) :
    v ∉ (signPassAux present routes routeIndex combination engine
        fuel sign i removed).1 ∧
      v ∈ (signPassAux present routes routeIndex combination engine
        fuel sign i removed).2 := by
  have hproc : processSignVehicle present routes routeIndex combination engine v =
      SignAction.dropBoth := by
    have hb : present.contains v = true := by simpa using hpres
    unfold processSignVehicle
    rw [if_pos hb]
    simp only [hfind, hdup, if_true]
  cases fuel with
  | zero => omega
  | succ fuel =>
    simp only [signPassAux]
    rw [dif_pos hi]
    rw [hv, hproc]
    constructor
    · intro hmem
      have hsub := signPassAux_fst_sublist present routes routeIndex combination
        engine fuel (sign.erase v) (i + 1) (removed ++ [v])
      have hin : v ∈ sign.erase v := hsub.subset hmem
      have : v ≠ v ∧ v ∈ sign := (List.Nodup.mem_erase_iff hnd).mp hin
      exact this.1 rfl
    · exact signPassAux_removed_sub present routes routeIndex combination engine
        fuel (sign.erase v) (i + 1) (removed ++ [v]) v (by simp)

/-- C8 witness: a concrete queued vehicle "v", present in the simulation,
matched by redirection o→d at its current edge, whose post-redirect route
[o, d, o] has a repeated edge: it leaves the sign queue and is logged as
removed. -/
theorem signPass_loop_vehicle_removed_witness :
    ((0 : Nat) < 1 ∧ (["v"] : List String).Nodup ∧
        "v" ∈ (["v"] : List String)) ∧
      ("v" ∉ (signPassAux ["v"] (fun _ => ["o", "a"]) (fun _ => 0)
            [⟨"o", "d"⟩] (fun _ _ => ["o", "d", "o"]) 1 ["v"] 0 []).1 ∧
        "v" ∈ (signPassAux ["v"] (fun _ => ["o", "a"]) (fun _ => 0)
            [⟨"o", "d"⟩] (fun _ _ => ["o", "d", "o"]) 1 ["v"] 0 []).2) :=
  ⟨⟨by decide, by decide, by decide⟩,
    signPass_loop_vehicle_removed ["v"] (fun _ => ["o", "a"]) (fun _ => 0)
      [⟨"o", "d"⟩] (fun _ _ => ["o", "d", "o"]) 1 0 ["v"] [] "v" ⟨"o", "d"⟩
      (by decide) (by decide) (by decide) rfl (by decide) (by decide)
      (by decide)⟩

/-- C9: `step_and_update` follows the incremental-mean recurrence
`mean_{n+1} = (n*mean_n + sample)/(n+1)` for a step reporting one sample, and
feeding the samples [2,4,6] one per step from mean 0 at n = 0 yields the
running means [2,3,4]. -/
theorem step_and_update_incremental_mean :
    (∀ (s output : ℚ) (n : Nat),
        step_and_update [s] output n =
          (((n : ℚ) * output + s) / ((n : ℚ) + 1), n + 1)) ∧
      runningMeans [[2], [4], [6]] = [2, 3, 4] := by
  constructor
  · intro s output n
    simp [step_and_update]
  · norm_num [runningMeans, step_and_update]

/-! ## C6: the bounded retry loop -/

/-- C6 counterexample: with a single-redirection combination (length 1) and
an engine that never manages to place the destination on the route,
`reroute_until_correct` performs 3 rerouting attempts, exceeding
`2 * |combination| = 2`. -/
theorem c6_counterexample :
    ¬ ((reroute_until_correct (fun route _ => route)
          [⟨"a", "b"⟩] ["a"]).1 ≤
        2 * ([(⟨"a", "b"⟩ : Redirection)]).length) := by decide

/-- C6 (amended): for every engine behaviour, combination and starting route,
the bounded retry loop `reroute_until_correct` terminates and performs at
most `2 * |combination| + 1` rerouting attempts (the attempt made in the
iteration where `attempts` first exceeds `2·|combination|` still happens
before the loop gives up); on giving up it simply returns the route that
resulted, raising no error. -/
theorem reroute_until_correct_attempts_le
    (engine : List String → Redirection → List String)
    (combination : List Redirection) (route : List String) :
    (reroute_until_correct engine combination route).1 ≤
      2 * combination.length + 1 := by
  have := rerouteLoop_count_le engine combination
    (combination.length * 2 + 2) 1 route 0 (by omega)
  unfold reroute_until_correct
  omega

/-! ## C7: removal of vehicles departing on a closed edge -/

/-- C7: in the per-step loop of `simulate`, a newly departed vehicle whose
route's first edge is in the closed set is removed immediately — before any
strategy handling and with zero rerouting attempts — whatever strategy was
drawn for it; the `continue` then moves on to the next departed vehicle. -/
theorem handleDeparted_first_edge_closed
    (closed_edges : List String) (combination : List Redirection)
    (engine : List String → Redirection → List String)
    (strategy : Nat) (route : List String)
    (hne : route ≠ []) (hclosed : route.headD "" ∈ closed_edges) :
    handleDeparted closed_edges combination engine strategy route =
      (DepartAction.removed, 0) := by
  have hb : closed_edges.contains (route.headD "") = true := by
    simpa using hclosed
  unfold handleDeparted
  rw [if_pos hb]

/-- C7 witness: a vehicle with route ["c", "d"] while edge "c" is closed is
removed with zero reroute attempts. -/
theorem handleDeparted_first_edge_closed_witness :
    (["c", "d"] : List String) ≠ [] ∧
      (["c", "d"] : List String).headD "" ∈ (["c"] : List String) ∧
      handleDeparted ["c"] [] (fun route _ => route) NAVIGATION ["c", "d"] =
        (DepartAction.removed, 0) :=
  ⟨by decide, by decide,
    handleDeparted_first_edge_closed ["c"] [] (fun route _ => route)
      NAVIGATION ["c", "d"] (by decide) (by decide)⟩

end Agamotto
